import Mathlib

/-!
Shallow embedding, in Lean 4, of the first-party logic of the
`quantum_compute` repository (a set of Streamlit quantum-computing demos),
together with proofs of the frozen specification claims.

The embedded parts are:
* `classical_search` from `quantum_vs_classical_comp.py` (lines 55-63),
* `diffuser`, `build_oracle` and `grover_circuit_builder` from the same
  file (lines 10-52), with quantum circuits represented as lists of gates,
* the `Aer` import fallback from `qkd.py` (lines 8-16),
* the Streamlit session-state handling of the Grover page (lines 77-87),
* the BB84 sifting / accuracy / histogram-count logic from `qkd.py`
  (lines 92-122),
* the Bell circuit of `entangelment.py` (lines 16-20), evaluated with a
  small exact statevector simulator over ℚ (unnormalised amplitudes; the
  Born probability of an outcome is its squared amplitude divided by the
  total squared weight, so the missing `1/√2` normalisation cancels).

The file is laid out as definitions first, then the proofs.
-/

namespace QuantumCompute

/-- A quantum-circuit operation, as produced by the repository's circuit
builders.  Qubits are indexed from `0` (Qiskit convention: qubit `0` is the
least-significant bit of a measured bit-string). -/
inductive Gate : Type
  | H (q : ℕ)
  | X (q : ℕ)
  | Z (q : ℕ)
  | CX (c t : ℕ)
  | MCX (controls : List ℕ) (t : ℕ)
  | Measure (q c : ℕ)
deriving DecidableEq, Repr

/-! ### Classical search (`quantum_vs_classical_comp.py`, lines 55-63)

```python
def classical_search(data, target, visualize=False):
    steps = 0
    for i, val in enumerate(data):
        steps += 1
        if visualize:
            st.write(...)
        if val == target:
            return i, steps
    return -1, steps
```

The `visualize` flag only prints and does not affect the returned value, so
it is dropped from the embedding.  The accumulator version below carries the
current enumeration index `i` and the `steps` counter. -/

def classicalSearchAux {α : Type} [DecidableEq α] :
    List α → α → ℤ → ℕ → ℤ × ℕ
  | [], _, _, steps => (-1, steps)
  | v :: rest, t, i, steps =>
      if v = t then (i, steps + 1) else classicalSearchAux rest t (i + 1) (steps + 1)

/-- `classical_search(data, target)`: returns `(index, steps)`, where the
index is `-1` when the target is absent. -/
def classical_search {α : Type} [DecidableEq α] (data : List α) (target : α) : ℤ × ℕ :=
  classicalSearchAux data target 0 0

/-! ### Grover oracle and diffuser (`quantum_vs_classical_comp.py`, lines 10-52)

```python
def diffuser(n_qubits):
    qc = QuantumCircuit(n_qubits)
    qc.h(range(n_qubits)); qc.x(range(n_qubits))
    qc.h(n_qubits - 1); qc.mcx(list(range(n_qubits - 1)), n_qubits - 1); qc.h(n_qubits - 1)
    qc.x(range(n_qubits)); qc.h(range(n_qubits))
    return qc

def build_oracle(target_index, n):
    target_bin = f"{target_index:0{n}b}"
    oracle = QuantumCircuit(n)
    for i, bit in enumerate(reversed(target_bin)):
        if bit == '0':
            oracle.x(i)
    oracle.h(n - 1); oracle.mcx(list(range(n - 1)), n - 1); oracle.h(n - 1)
    for i, bit in enumerate(reversed(target_bin)):
        if bit == '0':
            oracle.x(i)
    return oracle

def grover_circuit_builder(target_index, n):
    oracle = build_oracle(target_index, n); diff = diffuser(n)
    qc = QuantumCircuit(n, n); qc.h(range(n))
    iterations = int(round((math.pi / 4) * math.sqrt(2 ** n)))
    for _ in range(iterations):
        qc.append(oracle.to_gate(), range(n)); qc.append(diff.to_gate(), range(n))
    qc.measure(range(n), range(n))
    return qc, iterations, oracle, diff
```

A circuit is embedded as its list of gates; `qc.append(sub.to_gate(), range(n))`
appends a sub-circuit on the identity qubit mapping, which inlines its gate
list. -/

/-- Fuel-driven helper for `pyBitWidth`; the first argument is fuel, the
second the number whose binary width is measured. -/
def pyBitWidthAux : ℕ → ℕ → ℕ
  | _, 0 => 1
  | _, 1 => 1
  | 0, _ => 0
  | fuel + 1, m + 2 => pyBitWidthAux fuel ((m + 2) / 2) + 1

/-- Number of characters of the Python binary representation `bin(x)` with
no padding: `1` digit for `0` and `1`, and one more digit per halving
otherwise.  (Fuel `x` suffices because repeated halving of `x ≥ 2` reaches
`1` in fewer than `x` steps.) -/
def pyBitWidth (x : ℕ) : ℕ := pyBitWidthAux x x

/-- The bit list `reversed(f"{x:0{n}b}")`, least-significant bit first: the
formatted string has `max n (pyBitWidth x)` characters (the format pads with
left zeros up to width `n` but never truncates), and after reversal the
character at position `i` is the bit `i` of `x`. -/
def revTargetBin (x n : ℕ) : List Bool :=
  (List.range (max n (pyBitWidth x))).map (fun i => x.testBit i)

/-- The X-gate layer of `build_oracle`: one `X i` for every position `i`
whose bit is `'0'`, produced by the `for i, bit in enumerate(reversed(target_bin))`
loop. -/
def oracleXLayer (x n : ℕ) : List Gate :=
  (revTargetBin x n).enum.filterMap
    (fun p => if p.2 = false then some (Gate.X p.1) else none)

/-- `build_oracle(target_index, n)` as its gate list. -/
def build_oracle (target_index n : ℕ) : List Gate :=
  oracleXLayer target_index n
    ++ [Gate.H (n - 1), Gate.MCX (List.range (n - 1)) (n - 1), Gate.H (n - 1)]
    ++ oracleXLayer target_index n

/-- `diffuser(n_qubits)` as its gate list; it depends only on the number of
qubits. -/
def diffuser (n_qubits : ℕ) : List Gate :=
  (List.range n_qubits).map Gate.H ++ (List.range n_qubits).map Gate.X
    ++ [Gate.H (n_qubits - 1),
        Gate.MCX (List.range (n_qubits - 1)) (n_qubits - 1),
        Gate.H (n_qubits - 1)]
    ++ (List.range n_qubits).map Gate.X ++ (List.range n_qubits).map Gate.H

/-- The X-gate layer as the specification describes it: an `X` on exactly
those qubit positions `i < n` whose bit `i` of the target index is `0`
(least-significant bit first), in increasing position order, and on no other
position.  This is the spec-side definition compared against the code-side
`oracleXLayer`. -/
def specXLayer (target_index n : ℕ) : List Gate :=
  (List.range n).filterMap
    (fun i => if target_index.testBit i then none else some (Gate.X i))

/-- The iteration count `int(round((math.pi / 4) * math.sqrt(2 ** n)))`.
Mathlib's `round` rounds half away from zero upward while Python rounds half
to even, but `(π/4)·√N` is irrational (π is irrational and `√N` here is a
nonzero rational or irrational), hence never an exact half, so the two
agree on these inputs. -/
noncomputable def groverIterations (n : ℕ) : ℤ :=
  round ((Real.pi / 4) * Real.sqrt ((2 : ℝ) ^ n))

/-- `grover_circuit_builder(target_index, n)`: returns the full circuit, the
iteration count, the oracle and the diffuser.  `range(iterations)` on a
negative count is empty, hence `Int.toNat`. -/
noncomputable def grover_circuit_builder (target_index n : ℕ) :
    List Gate × ℤ × List Gate × List Gate :=
  let oracle := build_oracle target_index n
  let diff := diffuser n
  let iterations := groverIterations n
  let qc :=
    (List.range n).map Gate.H
      ++ (List.range iterations.toNat).foldl (fun acc _ => acc ++ (oracle ++ diff)) []
      ++ (List.range n).map (fun i => Gate.Measure i i)
  (qc, iterations, oracle, diff)

/-! ### Aer import fallback (`qkd.py`, lines 8-16)

```python
try:
    from qiskit_aer import Aer
except ImportError:
    try:
        from qiskit.providers.aer import Aer
    except ImportError:
        st.error("Qiskit Aer simulator not found. Please install qiskit-aer.")
        st.stop()
```

The page run is a function of which of the two import paths is available;
the second component records whether the user-visible error was displayed. -/

/-- Which of the two simulator import paths supplied `Aer`. -/
inductive AerBackendSource : Type
  | qiskitAer
  | providersAer
deriving DecidableEq, Repr

/-- Outcome of the guarded import block: either the page proceeds with a
backend source, or it is halted by `st.stop()`. -/
inductive PageStart : Type
  | proceed (b : AerBackendSource)
  | halted
deriving DecidableEq, Repr

/-- The import fallback: try `qiskit_aer.Aer`, then `qiskit.providers.aer.Aer`,
else show the error and halt.  Returns the page outcome and whether the error
message was displayed. -/
def aerImportFallback (hasQiskitAer hasProvidersAer : Bool) : PageStart × Bool :=
  if hasQiskitAer then (PageStart.proceed AerBackendSource.qiskitAer, false)
  else if hasProvidersAer then (PageStart.proceed AerBackendSource.providersAer, false)
  else (PageStart.halted, true)

/-! ### Session-state target handling (`quantum_vs_classical_comp.py`, lines 77-87)

```python
if "data" not in st.session_state or st.session_state.get("num_items") != num_items:
    st.session_state.data = list(range(num_items))
    st.session_state.target = random.choice(st.session_state.data)
    st.session_state.num_items = num_items
...
if st.button("Reset Target"):
    st.session_state.target = random.choice(st.session_state.data)
```

One Streamlit rerun of the script is a function of the previous session
state (`none` on the first run), the currently selected item count, whether
the Reset Target button was pressed, and the random choice function
(`random.choice` picks a member of its argument). -/

/-- The ephemeral Streamlit session state of the Grover page. -/
structure Session where
  data : List ℕ
  target : ℕ
  num_items : ℕ
deriving DecidableEq, Repr

/-- The re-initialisation guard at the top of the script. -/
def initIfNeeded (prior : Option Session) (numItems : ℕ) (choose : List ℕ → ℕ) :
    Session :=
  match prior with
  | none =>
      { data := List.range numItems, target := choose (List.range numItems),
        num_items := numItems }
  | some s =>
      if s.num_items ≠ numItems then
        { data := List.range numItems, target := choose (List.range numItems),
          num_items := numItems }
      else s

/-- One rerun of the script: the guard, then the Reset Target button. -/
def scriptRun (prior : Option Session) (numItems : ℕ) (resetPressed : Bool)
    (choose : List ℕ → ℕ) : Session :=
  let s := initIfNeeded prior numItems choose
  if resetPressed then { s with target := choose s.data } else s

/-! ### BB84 sifting, accuracy and histogram counts (`qkd.py`, lines 92-122)

```python
matching_indices = [i for i in range(num_bits) if alice_bases[i] == bob_bases[i]]
alice_key = [alice_bits[i] for i in matching_indices]
bob_key = [bob_results[i] for i in matching_indices]
matches = sum(a == b for a, b in zip(alice_key, bob_key))
total = len(matching_indices)
accuracy = (matches / total * 100) if total > 0 else 0
...
counts = {}
for bit in bob_results:
    counts[str(bit)] = counts.get(str(bit), 0) + 1
```
-/

/-- A measurement basis, `'Z'` or `'X'` in the script. -/
inductive Basis : Type
  | Z
  | X
deriving DecidableEq, Repr

/-- Indices below `num_bits` at which Alice's and Bob's bases agree. -/
def matching_indices (num_bits : ℕ) (alice_bases bob_bases : List Basis) : List ℕ :=
  (List.range num_bits).filter
    (fun i => decide (alice_bases.getD i Basis.Z = bob_bases.getD i Basis.Z))

/-- Alice's sifted key: her bits at the matching indices. -/
def alice_key (alice_bits : List ℕ) (mi : List ℕ) : List ℕ :=
  mi.map (fun i => alice_bits.getD i 0)

/-- Bob's sifted key: his measured results at the matching indices. -/
def bob_key (bob_results : List ℕ) (mi : List ℕ) : List ℕ :=
  mi.map (fun i => bob_results.getD i 0)

/-- `sum(a == b for a, b in zip(alice_key, bob_key))`. -/
def key_matches (ak bk : List ℕ) : ℕ :=
  (ak.zip bk).countP (fun p => p.1 == p.2)

/-- `accuracy = (matches / total * 100) if total > 0 else 0`, in exact
rational arithmetic. -/
def accuracy (matched total : ℕ) : ℚ :=
  if 0 < total then (matched : ℚ) / (total : ℚ) * 100 else 0

/-- One step of the histogram loop: `counts[k] = counts.get(k, 0) + 1` on an
insertion-ordered dictionary.  The Python dictionary is keyed by `str(bit)`;
since `str` is injective on integers the dictionary is embedded keyed by the
bit itself. -/
def dictIncr : List (ℕ × ℕ) → ℕ → List (ℕ × ℕ)
  | [], k => [(k, 1)]
  | (k', v) :: rest, k =>
      if k' = k then (k', v + 1) :: rest else (k', v) :: dictIncr rest k

/-- The first-party histogram of Bob's per-qubit results. -/
def bb84_counts (bob_results : List ℕ) : List (ℕ × ℕ) :=
  bob_results.foldl dictIncr []

/-- Dictionary lookup with default `0` (`counts.get(k, 0)`). -/
def lookupD : List (ℕ × ℕ) → ℕ → ℕ
  | [], _ => 0
  | (k', v) :: rest, k => if k' = k then v else lookupD rest k

/-- Sum of the dictionary's values. -/
def valuesSum (counts : List (ℕ × ℕ)) : ℕ :=
  (counts.map Prod.snd).sum

/-! ### Bell circuit (`entangelment.py`, lines 16-20) and exact simulation

```python
qc = QuantumCircuit(2, 2)
qc.h(0)
qc.cx(0, 1)
qc.measure(0, 0)
qc.measure(1, 1)
```

The standard statevector semantics of these gates, in exact arithmetic.  A
state on `n` qubits is the list of its `2^n` basis amplitudes; basis index
`i` encodes qubit `q` as bit `q` of `i` (Qiskit convention, so a counts key
"c1 c0" for this circuit is the index with bit 0 = `c0` from
`measure(0, 0)` and bit 1 = `c1` from `measure(1, 1)`).  The Hadamard is
applied without its `1/√2` factor, so amplitudes stay integral for this gate
set; `probOf` divides a squared amplitude by the total squared weight, which
cancels the missing normalisation.  Measurement gates leave the statevector
unchanged: the outcome distribution of the run is the Born distribution of
the final state. -/

/-- Flip bit `q` of the basis index `i`. -/
def flipBit (i q : ℕ) : ℕ := i ^^^ (2 ^ q)

/-- Basis index `i` with bit `q` forced to `0`. -/
def clearBit (i q : ℕ) : ℕ := if i.testBit q then i ^^^ (2 ^ q) else i

/-- Basis index `i` with bit `q` forced to `1`. -/
def setBit (i q : ℕ) : ℕ := if i.testBit q then i else i ^^^ (2 ^ q)

/-- Apply one gate to an `n`-qubit state.  `H` maps `|0⟩ ↦ |0⟩+|1⟩` and
`|1⟩ ↦ |0⟩−|1⟩` (unnormalised); `X`, `CX` and `MCX` permute basis states;
`Z` negates the amplitudes with bit `q` set; measurements do not change the
statevector. -/
def applyGate (n : ℕ) (v : List ℤ) : Gate → List ℤ
  | Gate.H q => (List.range (2 ^ n)).map (fun i =>
      v.getD (clearBit i q) 0 + (if i.testBit q then -1 else 1) * v.getD (setBit i q) 0)
  | Gate.X q => (List.range (2 ^ n)).map (fun i => v.getD (flipBit i q) 0)
  | Gate.Z q => (List.range (2 ^ n)).map (fun i =>
      (if i.testBit q then -1 else 1) * v.getD i 0)
  | Gate.CX c t => (List.range (2 ^ n)).map (fun i =>
      v.getD (if i.testBit c then flipBit i t else i) 0)
  | Gate.MCX cs t => (List.range (2 ^ n)).map (fun i =>
      v.getD (if cs.all (fun c => i.testBit c) then flipBit i t else i) 0)
  | Gate.Measure _ _ => v

/-- Run a gate list on `n` qubits starting from `|0…0⟩`. -/
def runGates (n : ℕ) (gs : List Gate) : List ℤ :=
  gs.foldl (applyGate n) (1 :: List.replicate (2 ^ n - 1) 0)

/-- Born probability of the basis outcome `i` in the (unnormalised) state
`v`. -/
def probOf (v : List ℤ) (i : ℕ) : ℚ :=
  ((v.getD i 0 : ℚ)) ^ 2 / (v.map (fun a => (a : ℚ) ^ 2)).sum

/-- The two-qubit entangling circuit built by `entangelment.py`. -/
def bellCircuit : List Gate :=
  [Gate.H 0, Gate.CX 0 1, Gate.Measure 0 0, Gate.Measure 1 1]

end QuantumCompute

namespace QuantumCompute

/-! ## Proofs -/

/-! ### Classical search -/

lemma classicalSearchAux_of_mem {α : Type} [DecidableEq α]
    (data : List α) (target : α) :
    ∀ (i : ℤ) (s : ℕ), target ∈ data →
      classicalSearchAux data target i s =
        (i + data.indexOf target, s + data.indexOf target + 1) := by
  induction data with
  | nil => intro i s h; cases h
  | cons v rest ih =>
      intro i s h
      by_cases hv : v = target
      · subst hv
        simp [classicalSearchAux, List.indexOf_cons_self]
      · have hmem : target ∈ rest := by
          cases List.mem_cons.mp h with
          | inl hh => exact absurd hh.symm hv
          | inr hh => exact hh
        have hidx : (v :: rest).indexOf target = (rest.indexOf target) + 1 :=
          List.indexOf_cons_ne rest hv
        rw [show classicalSearchAux (v :: rest) target i s =
              classicalSearchAux rest target (i + 1) (s + 1) by
            simp [classicalSearchAux, hv]]
        rw [ih (i + 1) (s + 1) hmem, hidx]
        simp only [Prod.mk.injEq]
        constructor
        · push_cast; ring
        · ring

lemma classicalSearchAux_of_not_mem {α : Type} [DecidableEq α]
    (data : List α) (target : α) :
    ∀ (i : ℤ) (s : ℕ), target ∉ data →
      classicalSearchAux data target i s = (-1, s + data.length) := by
  induction data with
  | nil => intro i s _; simp [classicalSearchAux]
  | cons v rest ih =>
      intro i s h
      have hv : v ≠ target := fun hh => h (hh ▸ List.mem_cons_self v rest)
      have hrest : target ∉ rest := fun hh => h (List.mem_cons_of_mem v hh)
      rw [show classicalSearchAux (v :: rest) target i s =
            classicalSearchAux rest target (i + 1) (s + 1) by
          simp [classicalSearchAux, hv]]
      rw [ih (i + 1) (s + 1) hrest]
      simp [List.length_cons]
      ring

/-- C1: when the target occurs in the data, `classical_search` returns the
index of its first occurrence together with a step count of that index plus
one, and the step count never exceeds the length of the data. -/
theorem classical_search_found {α : Type} [DecidableEq α]
    (data : List α) (target : α) (h : target ∈ data) :
    classical_search data target =
        ((data.indexOf target : ℤ), data.indexOf target + 1) ∧
      data.indexOf target + 1 ≤ data.length := by
  constructor
  · have := classicalSearchAux_of_mem data target 0 0 h
    simpa [classical_search] using this
  · exact Nat.succ_le_of_lt (List.indexOf_lt_length.mpr h)

/-- Witness for `classical_search_found` at `data = [5, 3, 7]`, `target = 3`. -/
theorem classical_search_found_witness :
    classical_search [5, 3, 7] (3 : ℤ) = (1, 2) ∧ (2 : ℕ) ≤ 3 := by
  have h := classical_search_found [5, 3, 7] (3 : ℤ) (by decide)
  have hidx : ([5, 3, 7] : List ℤ).indexOf 3 = 1 := by decide
  constructor
  · rw [h.1, hidx]; norm_num
  · norm_num

/-- C3: when the target does not occur in the data, `classical_search`
returns the sentinel index `-1` together with a step count equal to the
length of the data. -/
theorem classical_search_not_found {α : Type} [DecidableEq α]
    (data : List α) (target : α) (h : target ∉ data) :
    classical_search data target = (-1, data.length) := by
  have := classicalSearchAux_of_not_mem data target 0 0 h
  simpa [classical_search] using this

/-- Witness for `classical_search_not_found` at `data = [5, 3, 7]`,
`target = 4`. -/
theorem classical_search_not_found_witness :
    classical_search [5, 3, 7] (4 : ℤ) = (-1, 3) := by
  have h := classical_search_not_found [5, 3, 7] (4 : ℤ) (by decide)
  simp at h
  exact h

/-! ### Oracle structure -/

lemma pyBitWidthAux_le :
    ∀ (fuel x n : ℕ), x ≤ fuel → x < 2 ^ n → 1 ≤ n → pyBitWidthAux fuel x ≤ n := by
  intro fuel
  induction fuel with
  | zero =>
      intro x n hx _ hn
      have hx0 : x = 0 := Nat.le_zero.mp hx
      subst hx0
      simpa [pyBitWidthAux] using hn
  | succ fuel ih =>
      intro x n hxf hxn hn
      match x with
      | 0 => simpa [pyBitWidthAux] using hn
      | 1 => simpa [pyBitWidthAux] using hn
      | m + 2 =>
          obtain ⟨n', rfl⟩ : ∃ n', n = n' + 1 := ⟨n - 1, by omega⟩
          have hn' : 1 ≤ n' := by
            rcases Nat.eq_zero_or_pos n' with h0 | h1
            · subst h0
              simp only [zero_add, pow_one] at hxn
              omega
            · exact h1
          have hdiv_lt : (m + 2) / 2 < 2 ^ n' := by
            have h2 : m + 2 < 2 ^ n' * 2 := by
              have := hxn
              rwa [pow_succ] at this
            omega
          have hdiv_fuel : (m + 2) / 2 ≤ fuel := by omega
          have := ih ((m + 2) / 2) n' hdiv_fuel hdiv_lt hn'
          calc pyBitWidthAux (fuel + 1) (m + 2)
              = pyBitWidthAux fuel ((m + 2) / 2) + 1 := by rw [pyBitWidthAux]
            _ ≤ n' + 1 := Nat.succ_le_succ this

lemma pyBitWidth_le {x n : ℕ} (hn : 1 ≤ n) (hx : x < 2 ^ n) : pyBitWidth x ≤ n :=
  pyBitWidthAux_le x x n le_rfl hx hn

lemma revTargetBin_eq {x n : ℕ} (hn : 1 ≤ n) (hx : x < 2 ^ n) :
    revTargetBin x n = (List.range n).map (fun i => x.testBit i) := by
  unfold revTargetBin
  rw [Nat.max_eq_left (pyBitWidth_le hn hx)]

lemma enumFrom_map_rangeAux (f : ℕ → Bool) :
    ∀ (n s : ℕ), List.enumFrom s ((List.range' s n).map f) =
      (List.range' s n).map (fun i => (i, f i)) := by
  intro n
  induction n with
  | zero => intro s; rfl
  | succ n ih =>
      intro s
      rw [List.range'_succ]
      simp only [List.map_cons, List.enumFrom_cons, ih (s + 1)]

lemma enum_map_range (f : ℕ → Bool) (n : ℕ) :
    ((List.range n).map f).enum = (List.range n).map (fun i => (i, f i)) := by
  rw [List.range_eq_range']
  simpa [List.enum] using enumFrom_map_rangeAux f n 0

lemma oracleXLayer_eq_spec {x n : ℕ} (hn : 1 ≤ n) (hx : x < 2 ^ n) :
    oracleXLayer x n = specXLayer x n := by
  unfold oracleXLayer specXLayer
  rw [revTargetBin_eq hn hx, enum_map_range, List.filterMap_map]
  congr 1
  funext i
  cases hb : x.testBit i <;> simp [hb, Function.comp]

/-- C4: for `1 ≤ n` and a target index below `2^n`, `build_oracle` is the
textbook marking circuit — an `X` layer on exactly the zero bits of the
target (least-significant bit first), the central `H`/multi-controlled-`X`/`H`
stage on the last qubit, and the same `X` layer again — and the diffuser part
returned by `grover_circuit_builder` does not depend on the target index. -/
theorem build_oracle_marks_target (n target_index : ℕ)
    (hn : 1 ≤ n) (hx : target_index < 2 ^ n) :
    build_oracle target_index n =
        specXLayer target_index n
          ++ [Gate.H (n - 1), Gate.MCX (List.range (n - 1)) (n - 1), Gate.H (n - 1)]
          ++ specXLayer target_index n ∧
      ∀ t₁ t₂ : ℕ, (grover_circuit_builder t₁ n).2.2.2 =
        (grover_circuit_builder t₂ n).2.2.2 := by
  refine ⟨?_, fun _ _ => rfl⟩
  unfold build_oracle
  rw [oracleXLayer_eq_spec hn hx]

/-- Witness for `build_oracle_marks_target` at `n = 2`,
`target_index = 2 = 0b10`: the oracle gate list is
`X 0, H 1, MCX [0] 1, H 1, X 0`. -/
theorem build_oracle_marks_target_witness :
    ((1 : ℕ) ≤ 2 ∧ (2 : ℕ) < 2 ^ 2) ∧
      build_oracle 2 2 =
        specXLayer 2 2
          ++ [Gate.H 1, Gate.MCX (List.range 1) 1, Gate.H 1]
          ++ specXLayer 2 2 := by
  refine ⟨⟨by decide, by decide⟩, ?_⟩
  exact (build_oracle_marks_target 2 2 (by decide) (by decide)).1

/-! ### Grover iteration count -/

lemma foldl_append_blocks (block : List Gate) :
    ∀ (k : ℕ) (acc : List Gate),
      (List.range k).foldl (fun acc _ => acc ++ block) acc =
        acc ++ List.flatten (List.replicate k block) := by
  intro k
  induction k with
  | zero => intro acc; simp
  | succ k ih =>
      intro acc
      rw [List.range_succ, List.foldl_append, ih]
      simp [List.replicate_succ']

/-- C2 (amended): `grover_circuit_builder` composes the oracle followed by
the diffuser exactly `iterations` times after the Hadamard layer and before
the measurements, where `iterations` is `round((π/4)·√(2^n))` — the integer
nearest to `(π/4)·√N`, not its floor. -/
theorem grover_composes_round_iterations (target_index n : ℕ) :
    grover_circuit_builder target_index n =
        ((List.range n).map Gate.H
            ++ List.flatten (List.replicate (groverIterations n).toNat
                  (build_oracle target_index n ++ diffuser n))
            ++ (List.range n).map (fun i => Gate.Measure i i),
          groverIterations n, build_oracle target_index n, diffuser n) ∧
      groverIterations n = round ((Real.pi / 4) * Real.sqrt ((2 : ℝ) ^ n)) := by
  constructor
  · rw [show grover_circuit_builder target_index n =
          ((List.range n).map Gate.H
              ++ (List.range (groverIterations n).toNat).foldl
                    (fun acc _ => acc ++ (build_oracle target_index n ++ diffuser n)) []
              ++ (List.range n).map (fun i => Gate.Measure i i),
            groverIterations n, build_oracle target_index n, diffuser n) from rfl]
    rw [foldl_append_blocks]
    simp
  · rfl

lemma sqrt_two_pow_two : Real.sqrt ((2 : ℝ) ^ (2 : ℕ)) = 2 :=
  Real.sqrt_sq (by norm_num)

lemma groverIterations_two : groverIterations 2 = 2 := by
  unfold groverIterations
  rw [sqrt_two_pow_two, round_eq]
  rw [show Real.pi / 4 * 2 = Real.pi / 2 by ring]
  have hpi₁ : (3 : ℝ) < Real.pi := Real.pi_gt_three
  have hpi₂ : Real.pi < 3.15 := Real.pi_lt_d2
  rw [Int.floor_eq_iff]
  constructor
  · push_cast; linarith
  · push_cast; linarith

/-- C2 (counterexample): at `n = 2` qubits (`N = 4` items) the iteration
count returned by `grover_circuit_builder` is `round(π/2) = 2`, while the
floor of `(π/4)·√N = π/2` is `1`. -/
theorem grover_iterations_ne_floor :
    (grover_circuit_builder 0 2).2.1 ≠ ⌊(Real.pi / 4) * Real.sqrt ((2 : ℝ) ^ (2 : ℕ))⌋ := by
  have hL : (grover_circuit_builder 0 2).2.1 = 2 := groverIterations_two
  have hR : ⌊(Real.pi / 4) * Real.sqrt ((2 : ℝ) ^ (2 : ℕ))⌋ = 1 := by
    rw [sqrt_two_pow_two]
    rw [show Real.pi / 4 * 2 = Real.pi / 2 by ring]
    have hpi₁ : (3 : ℝ) < Real.pi := Real.pi_gt_three
    have hpi₂ : Real.pi < 3.15 := Real.pi_lt_d2
    rw [Int.floor_eq_iff]
    constructor
    · push_cast; linarith
    · push_cast; linarith
  rw [hL, hR]
  decide

/-! ### Aer import fallback -/

/-- C5: the BB84 page halts with the user-visible error exactly when neither
simulator import path is available; when `qiskit_aer` is available it is
used with no error, and otherwise `qiskit.providers.aer` is used with no
error when available. -/
theorem aer_import_fallback_spec :
    ∀ a b : Bool,
      ((aerImportFallback a b).1 = PageStart.halted ↔ a = false ∧ b = false) ∧
        ((aerImportFallback a b).2 = true ↔ a = false ∧ b = false) ∧
        aerImportFallback true b = (PageStart.proceed AerBackendSource.qiskitAer, false) ∧
        aerImportFallback false true =
          (PageStart.proceed AerBackendSource.providersAer, false) := by
  decide

/-! ### Session-state target handling -/

lemma headD_mem : ∀ l : List ℕ, l ≠ [] → l.headD 0 ∈ l := by
  intro l hl
  cases l with
  | nil => exact absurd rfl hl
  | cons a as => simp

/-- C6: across reruns, the session target is unchanged (and the whole state
is unchanged) unless the selected item count differs from the stored one or
the Reset Target button is pressed; the target only changes on one of those
two events; and, for a choice function that picks a member of its argument,
the target stays a member of the session data list. -/
theorem session_target_stable (s : Session) (numItems : ℕ) (reset : Bool)
    (choose : List ℕ → ℕ)
    (hchoose : ∀ l : List ℕ, l ≠ [] → choose l ∈ l)
    (hmem : s.target ∈ s.data) (hpos : 0 < numItems) :
    (s.num_items = numItems → reset = false →
        scriptRun (some s) numItems reset choose = s) ∧
      ((scriptRun (some s) numItems reset choose).target ≠ s.target →
        reset = true ∨ s.num_items ≠ numItems) ∧
      (scriptRun (some s) numItems reset choose).target ∈
        (scriptRun (some s) numItems reset choose).data := by
  have hrange : List.range numItems ≠ [] := by
    simp only [ne_eq, List.range_eq_nil]
    omega
  have hdata : s.data ≠ [] := List.ne_nil_of_mem hmem
  refine ⟨?_, ?_, ?_⟩
  · intro hni hr
    simp [scriptRun, initIfNeeded, hni, hr]
  · intro hne
    by_contra hcon
    push_neg at hcon
    obtain ⟨hr, hni⟩ := hcon
    simp only [ne_eq, Bool.not_eq_true] at hr
    simp [scriptRun, initIfNeeded, hni, hr] at hne
  · by_cases hni : s.num_items ≠ numItems
    · by_cases hr : reset
      · simpa [scriptRun, initIfNeeded, hni, hr] using
          hchoose (List.range numItems) hrange
      · simpa [scriptRun, initIfNeeded, hni, hr] using
          hchoose (List.range numItems) hrange
    · by_cases hr : reset
      · simpa [scriptRun, initIfNeeded, hni, hr] using hchoose s.data hdata
      · simpa [scriptRun, initIfNeeded, hni, hr] using hmem

/-- Witness for `session_target_stable`: a stored state for 2 items with
target `0`, rerun with the same item count and no reset, is returned
unchanged. -/
theorem session_target_stable_witness :
    scriptRun (some ⟨[0, 1], 0, 2⟩) 2 false (fun l => l.headD 0) = ⟨[0, 1], 0, 2⟩ :=
  (session_target_stable ⟨[0, 1], 0, 2⟩ 2 false (fun l => l.headD 0)
      headD_mem (by decide) (by decide)).1 rfl rfl

/-! ### BB84 sifting -/

lemma getD_map_of_lt (f : ℕ → ℕ) (l : List ℕ) (j : ℕ) (hj : j < l.length) :
    (l.map f).getD j 0 = f (l.getD j 0) := by
  rw [List.getD_eq_getElem _ _ (by simpa using hj), List.getD_eq_getElem _ _ hj,
    List.getElem_map]

/-- C8: the sifted keys keep exactly the positions below `num_bits` where
Alice's and Bob's bases agree, in increasing index order; both keys have
length equal to the number of matching indices, and the `j`-th entry of each
key is the corresponding party's bit at the `j`-th matching index. -/
theorem bb84_sifted_keys (num_bits : ℕ)
    (alice_bits : List ℕ) (alice_bases bob_bases : List Basis) (bob_results : List ℕ)
    (h₁ : alice_bits.length = num_bits) (h₂ : alice_bases.length = num_bits)
    (h₃ : bob_bases.length = num_bits) (h₄ : bob_results.length = num_bits) :
    (alice_key alice_bits (matching_indices num_bits alice_bases bob_bases)).length =
        (bob_key bob_results (matching_indices num_bits alice_bases bob_bases)).length ∧
      (alice_key alice_bits (matching_indices num_bits alice_bases bob_bases)).length =
        (matching_indices num_bits alice_bases bob_bases).length ∧
      (∀ i : ℕ, i ∈ matching_indices num_bits alice_bases bob_bases ↔
        i < num_bits ∧ alice_bases.getD i Basis.Z = bob_bases.getD i Basis.Z) ∧
      List.Sorted (· < ·) (matching_indices num_bits alice_bases bob_bases) ∧
      ∀ j : ℕ, j < (matching_indices num_bits alice_bases bob_bases).length →
        (alice_key alice_bits (matching_indices num_bits alice_bases bob_bases)).getD j 0 =
            alice_bits.getD
              ((matching_indices num_bits alice_bases bob_bases).getD j 0) 0 ∧
          (bob_key bob_results (matching_indices num_bits alice_bases bob_bases)).getD j 0 =
            bob_results.getD
              ((matching_indices num_bits alice_bases bob_bases).getD j 0) 0 := by
  refine ⟨?_, ?_, ?_, ?_, ?_⟩
  · simp [alice_key, bob_key]
  · simp [alice_key]
  · intro i
    simp [matching_indices, List.mem_filter, List.mem_range]
  · exact (List.sorted_lt_range num_bits).filter _
  · intro j hj
    exact ⟨getD_map_of_lt _ _ j hj, getD_map_of_lt _ _ j hj⟩

/-- Witness for `bb84_sifted_keys` with 2 bits, bases `[Z, X]` against
`[Z, Z]` (so only index 0 matches). -/
theorem bb84_sifted_keys_witness :
    (alice_key [1, 0] (matching_indices 2 [Basis.Z, Basis.X] [Basis.Z, Basis.Z])).length =
        (bob_key [1, 1] (matching_indices 2 [Basis.Z, Basis.X] [Basis.Z, Basis.Z])).length := by
  exact (bb84_sifted_keys 2 [1, 0] [Basis.Z, Basis.X] [Basis.Z, Basis.Z] [1, 1]
      rfl rfl rfl rfl).1

/-- C9: the key-agreement accuracy is the guarded expression
`matches / total * 100` for positive `total` and `0` when `total = 0`
(no division by zero), and it always lies between `0` and `100`. -/
theorem bb84_accuracy_bounds (num_bits : ℕ)
    (alice_bits : List ℕ) (alice_bases bob_bases : List Basis) (bob_results : List ℕ) :
    accuracy
        (key_matches
          (alice_key alice_bits (matching_indices num_bits alice_bases bob_bases))
          (bob_key bob_results (matching_indices num_bits alice_bases bob_bases)))
        (matching_indices num_bits alice_bases bob_bases).length =
        (if 0 < (matching_indices num_bits alice_bases bob_bases).length then
          (key_matches
              (alice_key alice_bits (matching_indices num_bits alice_bases bob_bases))
              (bob_key bob_results (matching_indices num_bits alice_bases bob_bases)) : ℚ) /
              ((matching_indices num_bits alice_bases bob_bases).length : ℚ) * 100
        else 0) ∧
      accuracy
          (key_matches
            (alice_key alice_bits (matching_indices num_bits alice_bases bob_bases))
            (bob_key bob_results (matching_indices num_bits alice_bases bob_bases))) 0 = 0 ∧
      0 ≤ accuracy
          (key_matches
            (alice_key alice_bits (matching_indices num_bits alice_bases bob_bases))
            (bob_key bob_results (matching_indices num_bits alice_bases bob_bases)))
          (matching_indices num_bits alice_bases bob_bases).length ∧
      accuracy
          (key_matches
            (alice_key alice_bits (matching_indices num_bits alice_bases bob_bases))
            (bob_key bob_results (matching_indices num_bits alice_bases bob_bases)))
          (matching_indices num_bits alice_bases bob_bases).length ≤ 100 := by
  set mi := matching_indices num_bits alice_bases bob_bases with hmi
  set m := key_matches (alice_key alice_bits mi) (bob_key bob_results mi) with hm
  have hm_le : m ≤ mi.length := by
    have h1 : m ≤ ((alice_key alice_bits mi).zip (bob_key bob_results mi)).length :=
      List.countP_le_length _
    simpa [alice_key, bob_key, List.length_zip] using h1
  refine ⟨rfl, by simp [accuracy], ?_, ?_⟩
  · unfold accuracy
    split
    · positivity
    · exact le_rfl
  · unfold accuracy
    split
    · rename_i ht
      have htQ : (0 : ℚ) < (mi.length : ℚ) := by exact_mod_cast ht
      have h1 : (m : ℚ) / (mi.length : ℚ) ≤ 1 :=
        (div_le_one htQ).mpr (by exact_mod_cast hm_le)
      calc (m : ℚ) / (mi.length : ℚ) * 100 ≤ 1 * 100 := by
            exact mul_le_mul_of_nonneg_right h1 (by norm_num)
        _ = 100 := by norm_num
    · norm_num

/-! ### BB84 histogram counts -/

lemma lookupD_dictIncr (acc : List (ℕ × ℕ)) (k b : ℕ) :
    lookupD (dictIncr acc k) b = lookupD acc b + (if b = k then 1 else 0) := by
  induction acc with
  | nil =>
      by_cases hb : b = k
      · simp [dictIncr, lookupD, hb]
      · have hb' : ¬ k = b := fun h => hb h.symm
        simp [dictIncr, lookupD, hb, hb']
  | cons hd tl ih =>
      obtain ⟨k', v⟩ := hd
      by_cases hk : k' = k
      · subst hk
        by_cases hb : k' = b
        · subst hb
          simp [dictIncr, lookupD]
        · have hb' : ¬ b = k' := fun h => hb h.symm
          simp [dictIncr, lookupD, hb, hb']
      · by_cases hb : k' = b
        · subst hb
          simp [dictIncr, lookupD, hk]
        · have hb' : ¬ b = k' := fun h => hb h.symm
          simp [dictIncr, lookupD, hk, hb, hb', ih]

lemma valuesSum_dictIncr (acc : List (ℕ × ℕ)) (k : ℕ) :
    valuesSum (dictIncr acc k) = valuesSum acc + 1 := by
  induction acc with
  | nil => simp [dictIncr, valuesSum]
  | cons hd tl ih =>
      obtain ⟨k', v⟩ := hd
      by_cases hk : k' = k
      · simp [dictIncr, valuesSum, hk]
        omega
      · simp [dictIncr, valuesSum, hk] at ih ⊢
        omega

lemma bb84_counts_loop (l : List ℕ) :
    ∀ acc : List (ℕ × ℕ),
      (∀ b : ℕ, lookupD (l.foldl dictIncr acc) b = lookupD acc b + l.count b) ∧
        valuesSum (l.foldl dictIncr acc) = valuesSum acc + l.length := by
  induction l with
  | nil => intro acc; simp
  | cons x xs ih =>
      intro acc
      constructor
      · intro b
        rw [List.foldl_cons, (ih (dictIncr acc x)).1 b, lookupD_dictIncr,
          List.count_cons]
        by_cases hb : b = x
        · simp [hb]
          omega
        · have hb' : ¬ x = b := fun h => hb h.symm
          simp [hb, hb']
      · rw [List.foldl_cons, (ih (dictIncr acc x)).2, valuesSum_dictIncr,
          List.length_cons]
        ring

/-- C10: the measurement-outcome histogram is computed from Bob's per-qubit
results: each bit maps to its number of occurrences in `bob_results`, and
the dictionary's values sum to the length of `bob_results`. -/
theorem bb84_counts_histogram :
    ∀ bob_results : List ℕ,
      (∀ b : ℕ, lookupD (bb84_counts bob_results) b = bob_results.count b) ∧
        valuesSum (bb84_counts bob_results) = bob_results.length := by
  intro l
  have h := bb84_counts_loop l []
  constructor
  · intro b
    simpa [bb84_counts, lookupD] using h.1 b
  · simpa [bb84_counts, valuesSum] using h.2

/-! ### Bell circuit outcome distribution -/

/-- C7: the Bell circuit's outcome distribution is concentrated on the two
correlated bit-strings: the outcomes `01` (basis index 1) and `10` (basis
index 2) have probability zero, while `00` and `11` each occur with
probability `1/2`. -/
theorem bell_outcomes_correlated :
    probOf (runGates 2 bellCircuit) 1 = 0 ∧
      probOf (runGates 2 bellCircuit) 2 = 0 ∧
      probOf (runGates 2 bellCircuit) 0 = 1 / 2 ∧
      probOf (runGates 2 bellCircuit) 3 = 1 / 2 := by
  have hstate : runGates 2 bellCircuit = [1, 0, 0, 1] := by decide
  refine ⟨?_, ?_, ?_, ?_⟩ <;> rw [hstate] <;> norm_num [probOf]

end QuantumCompute
